import Mathlib

/-!
# elasticsearch-proxy: the authorization request handler

A shallow embedding of `pkg/handlers/authorization/handler.go` together with the parts of the
Go standard library (`strings`, `net/textproto`, `net/http`) and of `go-simplejson` that the
handler calls, followed by theorems about the embedded code.

Go strings are modelled by `String` (sequences of code points), Go slices by `List`, a Go
run-time panic by the `Except.error` branch of `Except Panic`.
-/

namespace ElasticsearchProxy

/-! ## Go run time -/

/-- Run-time panics the handler can raise. -/
inductive Panic where
  /-- Indexing a slice of length `len` at `index`, with `len ≤ index`. -/
  | indexOutOfRange (index len : Nat)
  deriving DecidableEq, Repr

/-- Go `error` values; only their presence matters to the handler, the text is carried along. -/
abbrev Error := String

/-- Slice indexing `a[i]`, which panics when `i` is out of range. -/
def index {α : Type} (a : List α) (i : Nat) : Except Panic α :=
  match a.get? i with
  | some x => .ok x
  | none => .error (.indexOutOfRange i a.length)

/-! ## Package `strings` -/

/-- Lower-case mapping of one code point, `unicode.ToLower`. The letters `A`..`Z` move to
`a`..`z`; U+0130 and U+212A are the two code points outside ASCII whose lower case is an ASCII
letter (`i` and `k`). Every other code point outside ASCII is kept: Go maps it to a code point
outside ASCII again, so the comparison of a lowered string with an ASCII word is unaffected. -/
def toLowerRune (c : Char) : Char :=
  if 65 ≤ c.toNat ∧ c.toNat ≤ 90 then Char.ofNat (c.toNat + 32)
  else if c.toNat = 0x130 then Char.ofNat 105
  else if c.toNat = 0x212A then Char.ofNat 107
  else c

/-- Go `strings.ToLower`. -/
def ToLower (s : String) : String := ⟨s.data.map toLowerRune⟩

/-- Cut a text at the first occurrence of `sep`: the text before it and the text after it, or
`none` when `sep` does not occur (`strings.Index` returning `-1`). -/
def cut (sep : Char) : List Char → Option (List Char × List Char)
  | [] => none
  | c :: cs =>
    if c = sep then some ([], cs)
    else match cut sep cs with
      | none => none
      | some (a, b) => some (c :: a, b)

/-- The loop of `strings.genSplit` for a one-character separator: at most `n` pieces, the last
one holding the unsplit remainder. -/
def splitChars (sep : Char) : Nat → List Char → List (List Char)
  | 0, _ => []
  | 1, s => [s]
  | n + 2, s =>
    match cut sep s with
    | none => [s]
    | some (a, b) => a :: splitChars sep (n + 1) b

/-- Go `strings.SplitN(s, sep, n)` for a one-character separator and `n ≥ 0`. -/
def SplitN (s : String) (sep : Char) (n : Nat) : List String :=
  (splitChars sep n s.data).map String.mk

/-! ## Package `net/textproto`: canonical header keys -/

/-- The bytes allowed in a header field name (`validHeaderFieldByte`): the RFC 7230 token
characters. -/
def validHeaderFieldByte (c : Char) : Bool :=
  let n := c.toNat
  (48 ≤ n && n ≤ 57) || (65 ≤ n && n ≤ 90) || (97 ≤ n && n ≤ 122) ||
  [33, 35, 36, 37, 38, 39, 42, 43, 45, 46, 94, 95, 96, 124, 126].contains n

/-- The canonicalising loop of `canonicalMIMEHeaderKey`: upper case for the first letter and
for a letter after a hyphen, lower case elsewhere. `upper` is the loop variable of the same
name. -/
def canonLoop : Bool → List Char → List Char
  | _, [] => []
  | upper, c :: cs =>
    let c1 :=
      if upper && (97 ≤ c.toNat && c.toNat ≤ 122) then Char.ofNat (c.toNat - 32)
      else if !upper && (65 ≤ c.toNat && c.toNat ≤ 90) then Char.ofNat (c.toNat + 32)
      else c
    c1 :: canonLoop (c1.toNat == 45) cs

/-- Go `textproto.CanonicalMIMEHeaderKey`: a key holding a byte that is not allowed in a field
name is returned unchanged, any other key is canonicalised. -/
def CanonicalMIMEHeaderKey (s : String) : String :=
  if s.data.all validHeaderFieldByte then ⟨canonLoop true s.data⟩ else s

/-! ## Package `net/http`: headers and requests -/

/-- Go `http.Header`, a `map[string][]string`: each key is absent (`none`) or bound to a slice
of values. -/
structure Header where
  /-- The map lookup `h[key]`, with `none` for a key that is not in the map. -/
  entry : String → Option (List String)

/-- The map literal with the given entries; an earlier entry shadows a later one with the same
key. -/
def Header.ofList (l : List (String × List String)) : Header :=
  ⟨fun k => l.lookup k⟩

/-- Go `Header.Values`: all values bound to the canonical form of `key`. -/
def Header.Values (h : Header) (key : String) : List String :=
  (h.entry (CanonicalMIMEHeaderKey key)).getD []

/-- Go `Header.Get`: the first value bound to the canonical form of `key`, or `""`. -/
def Header.Get (h : Header) (key : String) : String :=
  match h.entry (CanonicalMIMEHeaderKey key) with
  | some (v :: _) => v
  | _ => ""

/-- Go `Header.Del`: delete the canonical form of `key` from the map. -/
def Header.Del (h : Header) (key : String) : Header :=
  ⟨fun k => if k = CanonicalMIMEHeaderKey key then none else h.entry k⟩

/-- Go `Header.Set`: bind the canonical form of `key` to the single value `value`. -/
def Header.Set (h : Header) (key value : String) : Header :=
  ⟨fun k => if k = CanonicalMIMEHeaderKey key then some [value] else h.entry k⟩

/-- Go `Header.Add`: append `value` to the values bound to the canonical form of `key`. -/
def Header.Add (h : Header) (key value : String) : Header :=
  ⟨fun k => if k = CanonicalMIMEHeaderKey key then some ((h.entry k).getD [] ++ [value])
    else h.entry k⟩

/-- Go `http.Request`, reduced to the one field the handler reads and writes. -/
structure Request where
  /-- The request headers. -/
  Header : Header

/-! ## Package `authorization`: constants and header helpers -/

def headerAuthorization : String := "Authorization"
def headerForwardedUser : String := "X-Forwarded-User"
def headerForwardedRole : String := "X-Forwarded-Role"
def headerForwardedNamespace : String := "X-Forwarded-Namespace"
def headerForwardedNamespaceUID : String := "X-Forwarded-NamespaceUID"

/-- Source `sanitizeHeaders`: delete the `Authorization` header. -/
def sanitizeHeaders (req : Request) : Request :=
  { req with Header := req.Header.Del headerAuthorization }

/-- Source `getBearerTokenFrom`: split the `Authorization` value at the first space; when the
first part lower-cases to `bearer` return the second part, otherwise `""`. The access
`parts[1]` panics when there is no second part. -/
def getBearerTokenFrom (req : Request) : Except Panic String :=
  let parts := SplitN (req.Header.Get headerAuthorization) (Char.ofNat 32) 2
  match parts with
  | p0 :: _ => if ToLower p0 = "bearer" then index parts 1 else .ok ""
  | [] => .ok ""

/-! ## Package `go-simplejson` -/

/-- The decoded JSON value a `simplejson.Json` wraps (its `data interface{}`): `nil`, a bool,
a number (kept as its literal), a string, a `[]interface{}` or a `map[string]interface{}`. -/
inductive Json where
  | null
  | bool (b : Bool)
  | number (literal : String)
  | string (s : String)
  | array (items : List Json)
  | object (fields : List (String × Json))

namespace Json

/-- Method `CheckGet(key)`: the value under `key` when the data is a map holding that key. -/
def CheckGet (j : Json) (key : String) : Option Json :=
  match j with
  | object fields => fields.lookup key
  | _ => none

/-- Method `Get(key)`: the value under `key`, or a `Json` wrapping `nil`. -/
def Get (j : Json) (key : String) : Json :=
  match j with
  | object fields => (fields.lookup key).getD null
  | _ => null

/-- Method `GetPath(branch...)`: `Get` applied along the branch. -/
def GetPath (j : Json) (branch : List String) : Json :=
  branch.foldl Get j

/-- Method `MustArray()`: the array when the data is one, otherwise a nil slice. -/
def MustArray (j : Json) : List Json :=
  match j with
  | array items => items
  | _ => []

/-- Method `GetIndex(index)`: the element at `index` when the data is an array that long, or
a `Json` wrapping `nil`. -/
def GetIndex (j : Json) (i : Nat) : Json :=
  match j with
  | array items => (items.get? i).getD null
  | _ => null

/-- The test `value.Interface() != nil`. -/
def notNil (j : Json) : Bool :=
  match j with
  | null => false
  | _ => true

/-- Method `MustString()`: the string when the data is one, otherwise `""`. -/
def MustString (j : Json) : String :=
  match j with
  | string s => s
  | _ => ""

end Json

/-! ## Packages `handlers`, `config` and `clients`: the declarations the handler uses -/

/-- Type `handlers.Namespace`. -/
structure Namespace where
  Name : String
  UID : String
  deriving DecidableEq, Repr

/-- Type `handlers.RequestContext`; a Go zero value is the default here. -/
structure RequestContext where
  Token : String := ""
  UserName : String := ""
  Roles : List String := []
  Namespaces : List Namespace := []
  deriving DecidableEq, Repr

/-- Type `config.BackendRoleConfig`: the action one role rule asks about. -/
structure BackendRoleConfig where
  Namespace : String
  Verb : String
  Resource : String
  ResourceAPIGroup : String
  deriving DecidableEq, Repr

/-- Type `config.Options`, reduced to `AuthBackEndRoles`. The source ranges over it with a
string key, so it is a Go map from rule name to rule; it is given here as its entries in the
order in which the `range` statement of `fetchRoles` visits them. -/
structure Options where
  AuthBackEndRoles : List (String × BackendRoleConfig)

/-- Type `clients.TokenReview`, reduced to what its method `UserName()` returns. -/
structure TokenReview where
  UserName : String
  deriving DecidableEq, Repr

/-- Interface `clients.OpenShiftClient`. Each method is a network call that may answer
differently every time, so it reads and updates a state `σ` of the outside world. -/
structure OpenShiftClient (σ : Type) where
  TokenReview : (token : String) → σ → Except Error TokenReview × σ
  SubjectAccessReview : (user ns verb resource resourceAPIGroup : String) → σ →
    Except Error Bool × σ
  Get : (path token : String) → σ → Except Error Json × σ

/-- One call issued to the identity client, with the answer it got. -/
inductive Call where
  | tokenReview (token : String) (result : Except Error TokenReview)
  | subjectAccessReview (user ns verb resource resourceAPIGroup : String)
      (result : Except Error Bool)
  | get (path token : String) (result : Except Error Json)

/-- The world the handler runs in: the state behind the client, and the calls issued so far,
oldest first. -/
structure World (σ : Type) where
  state : σ
  calls : List Call

/-! ## Package `authorization`: the handler -/

/-- Type `authorizationHandler`. -/
structure authorizationHandler (σ : Type) where
  config : Options
  osClient : OpenShiftClient σ

variable {σ : Type}

/-- The call `auth.osClient.TokenReview(token)`, recorded in the world. -/
def callTokenReview (auth : authorizationHandler σ) (token : String) (w : World σ) :
    Except Error TokenReview × World σ :=
  let r := auth.osClient.TokenReview token w.state
  (r.1, ⟨r.2, w.calls ++ [Call.tokenReview token r.1]⟩)

/-- The call `auth.osClient.SubjectAccessReview(...)`, recorded in the world. -/
def callSubjectAccessReview (auth : authorizationHandler σ)
    (user ns verb resource resourceAPIGroup : String) (w : World σ) :
    Except Error Bool × World σ :=
  let r := auth.osClient.SubjectAccessReview user ns verb resource resourceAPIGroup w.state
  (r.1, ⟨r.2, w.calls ++ [Call.subjectAccessReview user ns verb resource resourceAPIGroup r.1]⟩)

/-- The call `auth.osClient.Get(path, token)`, recorded in the world. -/
def callGet (auth : authorizationHandler σ) (path token : String) (w : World σ) :
    Except Error Json × World σ :=
  let r := auth.osClient.Get path token w.state
  (r.1, ⟨r.2, w.calls ++ [Call.get path token r.1]⟩)

/-- The body of the `range` loop of `fetchRoles` for one entry `name, sar`. -/
def fetchRolesBody (auth : authorizationHandler σ) (acc : RequestContext × World σ)
    (entry : String × BackendRoleConfig) : RequestContext × World σ :=
  let context := acc.1
  let name := entry.1
  let sar := entry.2
  let r := callSubjectAccessReview auth context.UserName sar.Namespace sar.Verb sar.Resource
    sar.ResourceAPIGroup acc.2
  match r.1 with
  | .ok allowed =>
    if allowed then ({ context with Roles := context.Roles ++ [name] }, r.2) else (context, r.2)
  | .error _ => (context, r.2)

/-- Source `authorizationHandler.fetchRoles`; the context after the loop carries the returned
`context.Roles`. -/
def fetchRoles (auth : authorizationHandler σ) (context : RequestContext) (w : World σ) :
    RequestContext × World σ :=
  auth.config.AuthBackEndRoles.foldl (fetchRolesBody auth) (context, w)

/-- The body of the counting loop of `fetchNamespaces` for index `i`. -/
def fetchNamespacesBody (items : Json) (context : RequestContext) (i : Nat) : RequestContext :=
  let value := (items.GetIndex i).GetPath ["metadata", "name"]
  let name := if value.notNil then value.MustString else ""
  let value := (items.GetIndex i).GetPath ["metadata", "uid"]
  let uid := if value.notNil then value.MustString else ""
  { context with Namespaces := context.Namespaces ++ [{ Name := name, UID := uid }] }

/-- Source `authorizationHandler.fetchNamespaces`; the context returned carries the returned
`context.Namespaces`. -/
def fetchNamespaces (auth : authorizationHandler σ) (context : RequestContext) (w : World σ) :
    RequestContext × World σ :=
  let r := callGet auth "apis/project.openshift.io/v1/projects" context.Token w
  match r.1 with
  | .error _ => (context, r.2)
  | .ok json =>
    match json.CheckGet "items" with
    | some items =>
      let total := items.MustArray.length
      ((List.range total).foldl (fetchNamespacesBody items) context, r.2)
    | none => (context, r.2)

/-- Source `authorizationHandler.fillContext`: the returned error, the context and the
world. -/
def fillContext (auth : authorizationHandler σ) (context : RequestContext) (w : World σ) :
    Option Error × RequestContext × World σ :=
  let r := callTokenReview auth context.Token w
  match r.1 with
  | .error err => (some err, context, r.2)
  | .ok json =>
    let context := { context with UserName := json.UserName }
    let rr := fetchRoles auth context r.2
    let rn := fetchNamespaces auth rr.1 rr.2
    (none, rn.1, rn.2)

/-- What one run of `Process` leaves behind: the returned request and error, the context it
was handed, and the world. -/
structure Outcome (σ : Type) where
  req : Request
  err : Option Error
  context : RequestContext
  world : World σ

/-- The loop `for _, role := range context.Roles` of `Process`. -/
def addRoles (h : Header) (roles : List String) : Header :=
  roles.foldl (fun h role => h.Add headerForwardedRole role) h

/-- The loop `for _, ns := range context.Namespaces` of `Process`. -/
def addNamespaces (h : Header) (namespaces : List Namespace) : Header :=
  namespaces.foldl
    (fun h ns => (h.Add headerForwardedNamespace ns.Name).Add headerForwardedNamespaceUID ns.UID)
    h

/-- Source `authorizationHandler.Process`. -/
def Process (auth : authorizationHandler σ) (req : Request) (context : RequestContext)
    (w : World σ) : Except Panic (Outcome σ) :=
  match getBearerTokenFrom req with
  | .error p => .error p
  | .ok token =>
    let context := { context with Token := token }
    if context.Token = "" then
      .ok ⟨req, none, context, w⟩
    else
      let req := sanitizeHeaders req
      let r := fillContext auth context w
      let context := r.2.1
      let header := req.Header.Set headerForwardedUser context.UserName
      let header := addRoles header context.Roles
      let header := addNamespaces header context.Namespaces
      .ok ⟨{ req with Header := header }, none, context, r.2.2⟩

/-! ## A scripted client, for running the handler on concrete inputs -/

/-- The answers a scripted client will give: one for token review, one per subject access
review in call order, one for the listing call. -/
structure Script where
  tokenReview : Except Error TokenReview
  subjectAccessReviews : List (Except Error Bool)
  get : Except Error Json

/-- A client that answers from a `Script`, in the manner of the test double `osClientFake`;
a subject access review beyond the scripted ones fails. -/
def scriptedClient : OpenShiftClient Script where
  TokenReview _ s := (s.tokenReview, s)
  SubjectAccessReview _ _ _ _ _ s :=
    match s.subjectAccessReviews with
    | [] => (.error "no answer scripted", s)
    | r :: rest => (r, { s with subjectAccessReviews := rest })
  Get _ _ s := (s.get, s)

/-- A handler over the scripted client with the given rules. -/
def scriptedHandler (rules : List (String × BackendRoleConfig)) : authorizationHandler Script :=
  { config := { AuthBackEndRoles := rules }, osClient := scriptedClient }

/-- A request with exactly the given headers. -/
def requestOf (headers : List (String × List String)) : Request :=
  { Header := Header.ofList headers }

/-- The rule `(namespace, verb, resource, group)` used in examples. -/
def sampleRule : BackendRoleConfig :=
  { Namespace := "default", Verb := "get", Resource := "pods", ResourceAPIGroup := "" }

/-- A script in which every call succeeds: user `foo`, no scripted access review, an empty
listing. -/
def sampleScript : Script :=
  { tokenReview := .ok { UserName := "foo" }, subjectAccessReviews := [],
    get := .ok (Json.object [("items", Json.array [])]) }

/-- A listing response with the single project `proj-a`. -/
def sampleListing : Json :=
  Json.object [("items", Json.array [Json.object [("metadata",
    Json.object [("name", Json.string "proj-a"), ("uid", Json.string "uid-1")])]])]

/-! ## Vocabulary of the specification -/

/-- The first space-delimited word of a header value: its scheme. -/
def firstWord (v : String) : String :=
  ⟨v.data.takeWhile (fun c => c ≠ Char.ofNat 32)⟩

/-- The request carries the Bearer credential `t`: its `Authorization` value is a word that
lower-cases to `bearer`, one space, and the non-empty token `t`. -/
def bearerCredential (req : Request) (t : String) : Prop :=
  (∃ s : String, ToLower s = "bearer" ∧ req.Header.Get headerAuthorization = s ++ " " ++ t) ∧
    t ≠ ""

/-- Whether the header map has an entry for the canonical form of `key`. -/
def Header.contains (h : Header) (key : String) : Bool :=
  (h.entry (CanonicalMIMEHeaderKey key)).isSome

/-- The answers of the token-review calls in a log, in call order. -/
def tokenReviewResults : List Call → List (Except Error TokenReview)
  | [] => []
  | Call.tokenReview _ r :: cs => r :: tokenReviewResults cs
  | _ :: cs => tokenReviewResults cs

/-- The answers of the subject-access-review calls in a log, in call order. -/
def sarResults : List Call → List (Except Error Bool)
  | [] => []
  | Call.subjectAccessReview _ _ _ _ _ r :: cs => r :: sarResults cs
  | _ :: cs => sarResults cs

/-- The answers of the listing calls in a log, in call order. -/
def getResults : List Call → List (Except Error Json)
  | [] => []
  | Call.get _ _ r :: cs => r :: getResults cs
  | _ :: cs => getResults cs

/-- The subject access review asked for one rule on behalf of `user`, with its answer. -/
def sarCall (user : String) (entry : String × BackendRoleConfig) (result : Except Error Bool) :
    Call :=
  Call.subjectAccessReview user entry.2.Namespace entry.2.Verb entry.2.Resource
    entry.2.ResourceAPIGroup result

/-- An answer that grants the role: the call returned without error and with allowed=true. -/
def grants (result : Except Error Bool) : Bool :=
  match result with
  | .ok true => true
  | _ => false

/-- The names of the rules whose answer grants the role, in rule order; `results` holds one
answer per rule. -/
def granted (rules : List (String × BackendRoleConfig)) (results : List (Except Error Bool)) :
    List String :=
  ((rules.zip results).filter (fun p => grants p.2)).map (fun p => p.1.1)

/-- The items of a listing response: the array under `items`, empty when there is none. -/
def listedItems (json : Json) : List Json :=
  match json.CheckGet "items" with
  | some items => items.MustArray
  | none => []

/-- The items returned by the listing calls of a log that succeeded. -/
def listedItemsOf (calls : List Call) : List Json :=
  (getResults calls).flatMap fun r =>
    match r with
    | .ok json => listedItems json
    | .error _ => []

/-- The string under a path of an item, with `""` for a value that is absent, null or not a
string. -/
def stringAt (item : Json) (path : List String) : String :=
  match item.GetPath path with
  | .string s => s
  | _ => ""

/-- The namespace an item of the listing response describes: its `metadata.name` and
`metadata.uid`. -/
def namespaceOf (item : Json) : Namespace :=
  { Name := stringAt item ["metadata", "name"], UID := stringAt item ["metadata", "uid"] }

/-- The path of the listing call. -/
def projectsPath : String := "apis/project.openshift.io/v1/projects"

/-- The namespaces a listing answer contributes: one per item on success, none on error. -/
def namespacesOf (result : Except Error Json) : List Namespace :=
  match result with
  | .ok json => (listedItems json).map namespaceOf
  | .error _ => []

/-- The header-writing statements of `Process` after `sanitizeHeaders`: set the user header,
add one role header per role, add one namespace and one UID header per namespace. -/
def injectHeaders (h : Header) (context : RequestContext) : Header :=
  addNamespaces (addRoles (h.Set headerForwardedUser context.UserName) context.Roles)
    context.Namespaces

/-- The value of `metadata.<field>` of an item, read off the JSON structure: present only when
the item is an object whose `metadata` is an object that has the field. -/
def metadataField (item : Json) (field : String) : Option Json :=
  match item with
  | .object fields =>
    match fields.lookup "metadata" with
    | some (.object metadata) => metadata.lookup field
    | _ => none
  | _ => none

/-- The string `metadata.<field>` of an item, with the empty string for a field that is
absent, null or not a string. -/
def metadataString (item : Json) (field : String) : String :=
  match metadataField item field with
  | some (.string s) => s
  | _ => ""

/-- The namespace entry the specification asks for an item: its `metadata.name` and
`metadata.uid`. -/
def namespaceEntry (item : Json) : Namespace :=
  { Name := metadataString item "name", UID := metadataString item "uid" }

/-- The header keys, in canonical form, under which `Process` forwards the identity. -/
def forwardedKeys : List String :=
  [CanonicalMIMEHeaderKey headerForwardedUser, CanonicalMIMEHeaderKey headerForwardedRole,
    CanonicalMIMEHeaderKey headerForwardedNamespace,
    CanonicalMIMEHeaderKey headerForwardedNamespaceUID]

/-- Two requests differ at most in their values of the four forwarded headers. -/
def differOnlyInForwarded (r1 r2 : Request) : Prop :=
  ∀ k, k ∉ forwardedKeys → r1.Header.entry k = r2.Header.entry k

/-- The four forwarded header values of a request: user, roles, namespaces, namespace UIDs. -/
def forwardedValues (req : Request) : List String × List String × List String × List String :=
  (req.Header.Values headerForwardedUser, req.Header.Values headerForwardedRole,
    req.Header.Values headerForwardedNamespace, req.Header.Values headerForwardedNamespaceUID)

/-- The answers the subject access reviews issued by one run of `fetchRoles` got, in call
order: those of the calls the run added to the log. -/
def sarAnswers (auth : authorizationHandler σ) (context : RequestContext) (w : World σ) :
    List (Except Error Bool) :=
  sarResults ((fetchRoles auth context w).2.calls.drop w.calls.length)

/-- Three rules, for examples. -/
def sampleRules : List (String × BackendRoleConfig) :=
  [("admin", sampleRule), ("viewer", sampleRule), ("ops", sampleRule)]

/-- A listing response with four items: a complete one, one without `uid`, one whose
`metadata` is null, and one whose `name` is a number and whose `uid` is null. -/
def raggedListing : List (String × Json) :=
  [("kind", Json.string "ProjectList"),
    ("items", Json.array [
      Json.object [("metadata",
        Json.object [("name", Json.string "proj-a"), ("uid", Json.string "uid-1")])],
      Json.object [("metadata", Json.object [("name", Json.string "proj-b")])],
      Json.object [("metadata", Json.null)],
      Json.object [("metadata",
        Json.object [("name", Json.number "7"), ("uid", Json.null)])]])]

/-! ## Lemmas: strings and the bearer token -/

theorem canon_authorization : CanonicalMIMEHeaderKey headerAuthorization = "Authorization" := by
  decide

theorem canon_user : CanonicalMIMEHeaderKey headerForwardedUser = "X-Forwarded-User" := by
  decide

theorem canon_role : CanonicalMIMEHeaderKey headerForwardedRole = "X-Forwarded-Role" := by
  decide

theorem canon_namespace :
    CanonicalMIMEHeaderKey headerForwardedNamespace = "X-Forwarded-Namespace" := by
  decide

/-- The UID header is stored under a key whose last three letters are lower case. -/
theorem canon_namespaceUID :
    CanonicalMIMEHeaderKey headerForwardedNamespaceUID = "X-Forwarded-Namespaceuid" := by
  decide

theorem toLowerRune_space : toLowerRune (Char.ofNat 32) = Char.ofNat 32 := by decide

/-- A word that lower-cases to `bearer` holds no space. -/
theorem no_space_of_bearer (s : String) (h : ToLower s = "bearer") :
    Char.ofNat 32 ∉ s.data := by
  intro hmem
  have h1 : s.data.map toLowerRune = "bearer".data := congrArg String.data h
  have h2 : toLowerRune (Char.ofNat 32) ∈ s.data.map toLowerRune := List.mem_map_of_mem _ hmem
  rw [h1, toLowerRune_space] at h2
  revert h2
  decide

theorem cut_append (sep : Char) (a b : List Char) (h : sep ∉ a) :
    cut sep (a ++ sep :: b) = some (a, b) := by
  induction a with
  | nil => simp [cut]
  | cons c cs ih =>
    have hc : c ≠ sep := fun e => h (by simp [e])
    have hcs : sep ∉ cs := fun e => h (by simp [e])
    simp [cut, hc, ih hcs]

theorem cut_none (sep : Char) (a : List Char) (h : cut sep a = none) :
    a.takeWhile (fun c => c ≠ sep) = a := by
  induction a with
  | nil => rfl
  | cons c cs ih =>
    by_cases hc : c = sep
    · simp [cut, hc] at h
    · cases hcut : cut sep cs with
      | none =>
        rw [List.takeWhile_cons, if_pos (by simpa using hc), ih hcut]
      | some p => simp [cut, hc, hcut] at h

theorem cut_some (sep : Char) (a x y : List Char) (h : cut sep a = some (x, y)) :
    a.takeWhile (fun c => c ≠ sep) = x := by
  induction a generalizing x y with
  | nil => simp [cut] at h
  | cons c cs ih =>
    by_cases hc : c = sep
    · simp [cut, hc] at h
      rw [List.takeWhile_cons, if_neg (by simpa using hc), h.1]
    · cases hcut : cut sep cs with
      | none => simp [cut, hc, hcut] at h
      | some p =>
        obtain ⟨x1, y1⟩ := p
        simp [cut, hc, hcut] at h
        rw [List.takeWhile_cons, if_pos (by simpa using hc), ih x1 y1 hcut, h.1]

/-- Splitting in two always yields a first part, and it is the first word. -/
theorem SplitN_two (v : String) :
    ∃ rest, SplitN v (Char.ofNat 32) 2 = firstWord v :: rest := by
  cases hcut : cut (Char.ofNat 32) v.data with
  | none =>
    refine ⟨[], ?_⟩
    have h := cut_none _ _ hcut
    simp only [SplitN, splitChars, hcut, firstWord, h, List.map]
  | some p =>
    obtain ⟨x, y⟩ := p
    refine ⟨[String.mk y], ?_⟩
    have h := cut_some _ _ _ _ hcut
    simp only [SplitN, splitChars, hcut, firstWord, h, List.map]

theorem SplitN_bearer (s t : String) (h : Char.ofNat 32 ∉ s.data) :
    SplitN (s ++ " " ++ t) (Char.ofNat 32) 2 = [s, t] := by
  have hd : (s ++ " " ++ t).data = s.data ++ Char.ofNat 32 :: t.data := by
    simp [String.data_append]
  simp [SplitN, splitChars, hd, cut_append _ _ _ h]

theorem getBearerTokenFrom_bearer (req : Request) (s t : String) (hs : ToLower s = "bearer")
    (hv : req.Header.Get headerAuthorization = s ++ " " ++ t) :
    getBearerTokenFrom req = .ok t := by
  simp [getBearerTokenFrom, hv, SplitN_bearer s t (no_space_of_bearer s hs), hs, index]

theorem getBearerTokenFrom_other (req : Request)
    (h : ToLower (firstWord (req.Header.Get headerAuthorization)) ≠ "bearer") :
    getBearerTokenFrom req = .ok "" := by
  obtain ⟨rest, hsplit⟩ := SplitN_two (req.Header.Get headerAuthorization)
  simp [getBearerTokenFrom, hsplit, h]

theorem getBearerTokenFrom_credential (req : Request) (t : String)
    (h : bearerCredential req t) : getBearerTokenFrom req = .ok t := by
  obtain ⟨⟨s, hs, hv⟩, _⟩ := h
  exact getBearerTokenFrom_bearer req s t hs hv

/-! ## Lemmas: header maps -/

theorem Add_entry_ne (h : Header) (key v k : String) (hk : k ≠ CanonicalMIMEHeaderKey key) :
    (h.Add key v).entry k = h.entry k := by
  simp [Header.Add, hk]

theorem Add_values (h : Header) (key v : String) :
    (h.Add key v).Values key = h.Values key ++ [v] := by
  simp [Header.Add, Header.Values]

theorem Add_values_ne (h : Header) (key v key2 : String)
    (hk : CanonicalMIMEHeaderKey key2 ≠ CanonicalMIMEHeaderKey key) :
    (h.Add key v).Values key2 = h.Values key2 := by
  simp [Header.Add, Header.Values, hk]

theorem foldl_Add_entry_ne (key : String) (vs : List String) (h : Header) (k : String)
    (hk : k ≠ CanonicalMIMEHeaderKey key) :
    (vs.foldl (fun h v => h.Add key v) h).entry k = h.entry k := by
  induction vs generalizing h with
  | nil => rfl
  | cons v vs ih => rw [List.foldl_cons, ih, Add_entry_ne h key v k hk]

theorem foldl_Add_values (key : String) (vs : List String) (h : Header) :
    (vs.foldl (fun h v => h.Add key v) h).Values key = h.Values key ++ vs := by
  induction vs generalizing h with
  | nil => simp
  | cons v vs ih => rw [List.foldl_cons, ih, Add_values]; simp

theorem addRoles_values (h : Header) (roles : List String) :
    (addRoles h roles).Values headerForwardedRole = h.Values headerForwardedRole ++ roles :=
  foldl_Add_values headerForwardedRole roles h

theorem addRoles_entry_ne (h : Header) (roles : List String) (k : String)
    (hk : k ≠ "X-Forwarded-Role") : (addRoles h roles).entry k = h.entry k :=
  foldl_Add_entry_ne headerForwardedRole roles h k (by rw [canon_role]; exact hk)

theorem addNamespaces_cons (h : Header) (ns : Namespace) (nss : List Namespace) :
    addNamespaces h (ns :: nss) =
      addNamespaces
        ((h.Add headerForwardedNamespace ns.Name).Add headerForwardedNamespaceUID ns.UID) nss :=
  rfl

theorem canon_namespace_ne_uid :
    CanonicalMIMEHeaderKey headerForwardedNamespace ≠
      CanonicalMIMEHeaderKey headerForwardedNamespaceUID := by
  decide

theorem addNamespaces_entry_ne (h : Header) (nss : List Namespace) (k : String)
    (hn : k ≠ "X-Forwarded-Namespace") (hu : k ≠ "X-Forwarded-Namespaceuid") :
    (addNamespaces h nss).entry k = h.entry k := by
  induction nss generalizing h with
  | nil => rfl
  | cons ns nss ih =>
    rw [addNamespaces_cons, ih, Add_entry_ne _ _ _ _ (by rw [canon_namespaceUID]; exact hu),
      Add_entry_ne _ _ _ _ (by rw [canon_namespace]; exact hn)]

theorem addNamespaces_names (h : Header) (nss : List Namespace) :
    (addNamespaces h nss).Values headerForwardedNamespace =
      h.Values headerForwardedNamespace ++ nss.map Namespace.Name := by
  induction nss generalizing h with
  | nil => simp [addNamespaces]
  | cons ns nss ih =>
    rw [addNamespaces_cons, ih, Add_values_ne _ _ _ _ canon_namespace_ne_uid, Add_values]
    simp

theorem addNamespaces_uids (h : Header) (nss : List Namespace) :
    (addNamespaces h nss).Values headerForwardedNamespaceUID =
      h.Values headerForwardedNamespaceUID ++ nss.map Namespace.UID := by
  induction nss generalizing h with
  | nil => simp [addNamespaces]
  | cons ns nss ih =>
    rw [addNamespaces_cons, ih, Add_values, Add_values_ne _ _ _ _ canon_namespace_ne_uid.symm]
    simp

/-! ## Lemmas: call logs -/

theorem sarResults_append (a b : List Call) :
    sarResults (a ++ b) = sarResults a ++ sarResults b := by
  induction a with
  | nil => rfl
  | cons c cs ih => cases c <;> simp [sarResults, ih]

theorem tokenReviewResults_append (a b : List Call) :
    tokenReviewResults (a ++ b) = tokenReviewResults a ++ tokenReviewResults b := by
  induction a with
  | nil => rfl
  | cons c cs ih => cases c <;> simp [tokenReviewResults, ih]

theorem getResults_append (a b : List Call) :
    getResults (a ++ b) = getResults a ++ getResults b := by
  induction a with
  | nil => rfl
  | cons c cs ih => cases c <;> simp [getResults, ih]

theorem sarResults_zipWith (user : String) (rules : List (String × BackendRoleConfig))
    (results : List (Except Error Bool)) (h : results.length = rules.length) :
    sarResults (List.zipWith (sarCall user) rules results) = results := by
  induction rules generalizing results with
  | nil => cases results with
    | nil => rfl
    | cons r rs => simp at h
  | cons e es ih => cases results with
    | nil => simp at h
    | cons r rs =>
      simp only [List.length_cons, Nat.add_right_cancel_iff] at h
      simp [sarCall, sarResults, ih rs h]

theorem tokenReviewResults_zipWith (user : String) (rules : List (String × BackendRoleConfig))
    (results : List (Except Error Bool)) :
    tokenReviewResults (List.zipWith (sarCall user) rules results) = [] := by
  induction rules generalizing results with
  | nil => simp [tokenReviewResults]
  | cons e es ih => cases results with
    | nil => simp [tokenReviewResults]
    | cons r rs => simp [sarCall, tokenReviewResults, ih rs]

theorem getResults_zipWith (user : String) (rules : List (String × BackendRoleConfig))
    (results : List (Except Error Bool)) :
    getResults (List.zipWith (sarCall user) rules results) = [] := by
  induction rules generalizing results with
  | nil => simp [getResults]
  | cons e es ih => cases results with
    | nil => simp [getResults]
    | cons r rs => simp [sarCall, getResults, ih rs]

/-! ## Lemmas: resolving roles and namespaces -/

theorem fetchRolesBody_eq (auth : authorizationHandler σ) (context : RequestContext)
    (w : World σ) (entry : String × BackendRoleConfig) :
    ∃ (result : Except Error Bool) (s : σ),
      fetchRolesBody auth (context, w) entry =
        ({ context with Roles := context.Roles ++ granted [entry] [result] },
          ⟨s, w.calls ++ [sarCall context.UserName entry result]⟩) := by
  refine ⟨(auth.osClient.SubjectAccessReview context.UserName entry.2.Namespace entry.2.Verb
    entry.2.Resource entry.2.ResourceAPIGroup w.state).1, (auth.osClient.SubjectAccessReview
    context.UserName entry.2.Namespace entry.2.Verb entry.2.Resource entry.2.ResourceAPIGroup
    w.state).2, ?_⟩
  simp only [fetchRolesBody, callSubjectAccessReview, sarCall]
  cases hr : (auth.osClient.SubjectAccessReview context.UserName entry.2.Namespace entry.2.Verb
    entry.2.Resource entry.2.ResourceAPIGroup w.state).1 with
  | error e => simp [granted, grants]
  | ok allowed => cases allowed <;> simp [granted, grants]

theorem granted_cons (entry : String × BackendRoleConfig) (rules : List (String × BackendRoleConfig))
    (result : Except Error Bool) (results : List (Except Error Bool)) :
    granted (entry :: rules) (result :: results) = granted [entry] [result] ++ granted rules results := by
  cases h : grants result <;> simp [granted, h]

/-- The loop of `fetchRoles`: one subject access review per rule, in rule order, and exactly
the rules whose answer grants the role are appended, in rule order. -/
theorem fetchRoles_fold (auth : authorizationHandler σ) (rules : List (String × BackendRoleConfig))
    (context : RequestContext) (w : World σ) :
    ∃ (results : List (Except Error Bool)) (s : σ), results.length = rules.length ∧
      rules.foldl (fetchRolesBody auth) (context, w) =
        ({ context with Roles := context.Roles ++ granted rules results },
          ⟨s, w.calls ++ List.zipWith (sarCall context.UserName) rules results⟩) := by
  induction rules generalizing context w with
  | nil => exact ⟨[], w.state, rfl, by simp [granted]⟩
  | cons entry rules ih =>
    obtain ⟨result, s1, h1⟩ := fetchRolesBody_eq auth context w entry
    obtain ⟨results, s2, hlen, h2⟩ := ih { context with Roles := context.Roles ++ granted [entry] [result] }
      ⟨s1, w.calls ++ [sarCall context.UserName entry result]⟩
    refine ⟨result :: results, s2, by simp [hlen], ?_⟩
    have hg := granted_cons entry rules result results
    rw [List.foldl_cons, h1, h2, hg]
    simp

theorem fetchNamespacesBody_eq (items : Json) (context : RequestContext) (i : Nat) :
    fetchNamespacesBody items context i =
      { context with Namespaces := context.Namespaces ++ [namespaceOf (items.GetIndex i)] } := by
  have key : ∀ v : Json, (if v.notNil then v.MustString else "") =
      (match v with | .string s => s | _ => "") := by
    intro v
    cases v <;> simp [Json.notNil, Json.MustString]
  simp only [fetchNamespacesBody, namespaceOf, stringAt, key]

theorem fetchNamespaces_loop (items : Json) (is : List Nat) (context : RequestContext) :
    is.foldl (fetchNamespacesBody items) context =
      { context with
        Namespaces := context.Namespaces ++ is.map fun i => namespaceOf (items.GetIndex i) } := by
  induction is generalizing context with
  | nil => simp
  | cons i is ih => rw [List.foldl_cons, ih, fetchNamespacesBody_eq]; simp

theorem range_GetIndex (items : Json) :
    (List.range items.MustArray.length).map (fun i => namespaceOf (items.GetIndex i)) =
      items.MustArray.map namespaceOf := by
  apply List.ext_getElem
  · simp
  · intro i h1 h2
    cases items <;> simp [Json.MustArray] at h1 h2 ⊢
    rename_i l
    simp [Json.GetIndex, List.getElem?_eq_getElem h2]

/-- Resolving namespaces: one listing call, and one namespace appended per item of a
successful answer, in item order. -/
theorem fetchNamespaces_eq (auth : authorizationHandler σ) (context : RequestContext)
    (w : World σ) :
    ∃ (result : Except Error Json) (s : σ),
      fetchNamespaces auth context w =
        ({ context with Namespaces := context.Namespaces ++ namespacesOf result },
          ⟨s, w.calls ++ [Call.get projectsPath context.Token result]⟩) := by
  refine ⟨(auth.osClient.Get projectsPath context.Token w.state).1,
    (auth.osClient.Get projectsPath context.Token w.state).2, ?_⟩
  simp only [fetchNamespaces, callGet, projectsPath]
  cases hr : (auth.osClient.Get "apis/project.openshift.io/v1/projects" context.Token w.state).1 with
  | error e => simp [namespacesOf]
  | ok json =>
    cases hitems : json.CheckGet "items" with
    | none => simp [namespacesOf, listedItems, hitems]
    | some items =>
      simp only [namespacesOf, listedItems, hitems, fetchNamespaces_loop, range_GetIndex]

/-! ## Lemmas: the run of `fillContext` and of `Process` -/

theorem fillContext_error (auth : authorizationHandler σ) (context : RequestContext)
    (w : World σ) (e : Error)
    (h : (auth.osClient.TokenReview context.Token w.state).1 = .error e) :
    fillContext auth context w =
      (some e, context, ⟨(auth.osClient.TokenReview context.Token w.state).2,
        w.calls ++ [Call.tokenReview context.Token (.error e)]⟩) := by
  simp [fillContext, callTokenReview, h]

theorem fillContext_ok (auth : authorizationHandler σ) (context : RequestContext)
    (w : World σ) (tr : TokenReview)
    (h : (auth.osClient.TokenReview context.Token w.state).1 = .ok tr) :
    ∃ (results : List (Except Error Bool)) (listing : Except Error Json) (s : σ),
      results.length = auth.config.AuthBackEndRoles.length ∧
      fillContext auth context w =
        (none,
          { Token := context.Token, UserName := tr.UserName,
            Roles := context.Roles ++ granted auth.config.AuthBackEndRoles results,
            Namespaces := context.Namespaces ++ namespacesOf listing },
          ⟨s, w.calls ++ Call.tokenReview context.Token (.ok tr) ::
            (List.zipWith (sarCall tr.UserName) auth.config.AuthBackEndRoles results ++
              [Call.get projectsPath context.Token listing])⟩) := by
  obtain ⟨results, s1, hlen, h1⟩ := fetchRoles_fold auth auth.config.AuthBackEndRoles
    { context with UserName := tr.UserName }
    ⟨(auth.osClient.TokenReview context.Token w.state).2,
      w.calls ++ [Call.tokenReview context.Token (.ok tr)]⟩
  obtain ⟨listing, s2, h2⟩ := fetchNamespaces_eq auth
    { Token := context.Token, UserName := tr.UserName,
      Roles := context.Roles ++ granted auth.config.AuthBackEndRoles results,
      Namespaces := context.Namespaces }
    ⟨s1, (w.calls ++ [Call.tokenReview context.Token (.ok tr)]) ++
      List.zipWith (sarCall tr.UserName) auth.config.AuthBackEndRoles results⟩
  refine ⟨results, listing, s2, hlen, ?_⟩
  simp only [fillContext, callTokenReview, h, fetchRoles]
  rw [h1]
  simp only []
  rw [h2]
  simp

theorem Process_credential (auth : authorizationHandler σ) (req : Request)
    (context : RequestContext) (w : World σ) (t : String) (h : bearerCredential req t) :
    Process auth req context w =
      .ok ⟨⟨injectHeaders (req.Header.Del headerAuthorization)
          (fillContext auth { context with Token := t } w).2.1⟩, none,
        (fillContext auth { context with Token := t } w).2.1,
        (fillContext auth { context with Token := t } w).2.2⟩ := by
  simp [Process, getBearerTokenFrom_credential req t h, h.2, sanitizeHeaders, injectHeaders]

theorem injectHeaders_entry (h : Header) (context : RequestContext) (k : String)
    (h1 : k ≠ "X-Forwarded-User") (h2 : k ≠ "X-Forwarded-Role")
    (h3 : k ≠ "X-Forwarded-Namespace") (h4 : k ≠ "X-Forwarded-Namespaceuid") :
    (injectHeaders h context).entry k = h.entry k := by
  rw [injectHeaders, addNamespaces_entry_ne _ _ _ h3 h4, addRoles_entry_ne _ _ _ h2]
  simp [Header.Set, canon_user, h1]

theorem injectHeaders_user (h : Header) (context : RequestContext) :
    (injectHeaders h context).Values headerForwardedUser = [context.UserName] := by
  rw [Header.Values, canon_user, injectHeaders,
    addNamespaces_entry_ne _ _ _ (by decide) (by decide), addRoles_entry_ne _ _ _ (by decide)]
  simp [Header.Set, canon_user]

theorem injectHeaders_roles (h : Header) (context : RequestContext) :
    (injectHeaders h context).Values headerForwardedRole =
      h.Values headerForwardedRole ++ context.Roles := by
  have h1 : (injectHeaders h context).Values headerForwardedRole =
      (addRoles (h.Set headerForwardedUser context.UserName) context.Roles).Values
        headerForwardedRole := by
    rw [Header.Values, Header.Values, canon_role, injectHeaders,
      addNamespaces_entry_ne _ _ _ (by decide) (by decide)]
  rw [h1, addRoles_values]
  simp [Header.Values, Header.Set, canon_user, canon_role]

theorem injectHeaders_names (h : Header) (context : RequestContext) :
    (injectHeaders h context).Values headerForwardedNamespace =
      h.Values headerForwardedNamespace ++ context.Namespaces.map Namespace.Name := by
  rw [injectHeaders, addNamespaces_names]
  congr 1
  rw [Header.Values, Header.Values, canon_namespace, addRoles_entry_ne _ _ _ (by decide)]
  simp [Header.Set, canon_user]

theorem injectHeaders_uids (h : Header) (context : RequestContext) :
    (injectHeaders h context).Values headerForwardedNamespaceUID =
      h.Values headerForwardedNamespaceUID ++ context.Namespaces.map Namespace.UID := by
  rw [injectHeaders, addNamespaces_uids]
  congr 1
  rw [Header.Values, Header.Values, canon_namespaceUID, addRoles_entry_ne _ _ _ (by decide)]
  simp [Header.Set, canon_user]

theorem Del_values_ne (h : Header) (key key2 : String)
    (hk : CanonicalMIMEHeaderKey key2 ≠ CanonicalMIMEHeaderKey key) :
    (h.Del key).Values key2 = h.Values key2 := by
  simp [Header.Del, Header.Values, hk]

/-- Whenever `getBearerTokenFrom` returns, `Process` returns as well, and its error is nil
whatever the client answers. -/
theorem Process_nil_error (auth : authorizationHandler σ) (req : Request)
    (context : RequestContext) (w : World σ) (token : String)
    (h : getBearerTokenFrom req = .ok token) :
    ∃ o, Process auth req context w = .ok o ∧ o.err = none := by
  by_cases ht : token = ""
  · refine ⟨⟨req, none, { context with Token := token }, w⟩, ?_, rfl⟩
    simp [Process, h, ht]
  · refine ⟨⟨⟨injectHeaders (req.Header.Del headerAuthorization)
        (fillContext auth { context with Token := token } w).2.1⟩, none,
      (fillContext auth { context with Token := token } w).2.1,
      (fillContext auth { context with Token := token } w).2.2⟩, ?_, rfl⟩
    simp [Process, h, ht, sanitizeHeaders, injectHeaders]

/-- The only way `Process` panics is a panic of `getBearerTokenFrom`. -/
theorem Process_panic_iff (auth : authorizationHandler σ) (req : Request)
    (context : RequestContext) (w : World σ) (p : Panic) :
    Process auth req context w = .error p ↔ getBearerTokenFrom req = .error p := by
  cases hg : getBearerTokenFrom req with
  | error q => simp [Process, hg]
  | ok token =>
    obtain ⟨o, ho, _⟩ := Process_nil_error auth req context w token hg
    simp [ho]

theorem listedItemsOf_single_get (pre : List Call) (path token : String)
    (listing : Except Error Json) (hpre : getResults pre = []) :
    (listedItemsOf (pre ++ [Call.get path token listing])).map namespaceOf =
      namespacesOf listing := by
  cases listing <;>
    simp [listedItemsOf, getResults_append, hpre, getResults, namespacesOf]

/-- What `Process` leaves in the role and namespace headers of a request carrying a Bearer
credential, started on the empty context: the inbound values of each header, followed by the
values resolved in this run. -/
theorem Process_forwarded_headers (auth : authorizationHandler σ) (req : Request) (s : σ)
    (t : String) (h : bearerCredential req t) :
    ∃ o, Process auth req {} ⟨s, []⟩ = .ok o ∧
      o.req.Header.Values headerForwardedRole =
        req.Header.Values headerForwardedRole ++
          granted auth.config.AuthBackEndRoles (sarResults o.world.calls) ∧
      o.req.Header.Values headerForwardedNamespace =
        req.Header.Values headerForwardedNamespace ++
          ((listedItemsOf o.world.calls).map namespaceOf).map Namespace.Name ∧
      o.req.Header.Values headerForwardedNamespaceUID =
        req.Header.Values headerForwardedNamespaceUID ++
          ((listedItemsOf o.world.calls).map namespaceOf).map Namespace.UID := by
  refine ⟨_, Process_credential auth req {} ⟨s, []⟩ t h, ?_⟩
  rw [injectHeaders_roles, injectHeaders_names, injectHeaders_uids,
    Del_values_ne _ _ _ (by decide), Del_values_ne _ _ _ (by decide),
    Del_values_ne _ _ _ (by decide)]
  cases htr : (auth.osClient.TokenReview t s).1 with
  | error e =>
    have hfill := fillContext_error auth { ({} : RequestContext) with Token := t } ⟨s, []⟩ e htr
    simp [hfill, sarResults, granted, listedItemsOf, getResults]
  | ok tr =>
    obtain ⟨results, listing, s2, hlen, hfill⟩ :=
      fillContext_ok auth { Token := t, UserName := "", Roles := [], Namespaces := [] }
        ⟨s, []⟩ tr htr
    have hfill2 : fillContext auth { ({} : RequestContext) with Token := t } ⟨s, []⟩ =
        (none, ⟨t, tr.UserName, granted auth.config.AuthBackEndRoles results,
            namespacesOf listing⟩,
          ⟨s2, (Call.tokenReview t (.ok tr) ::
            List.zipWith (sarCall tr.UserName) auth.config.AuthBackEndRoles results) ++
              [Call.get projectsPath t listing]⟩) := by
      simpa using hfill
    have hsar : sarResults ((Call.tokenReview t (.ok tr) ::
        List.zipWith (sarCall tr.UserName) auth.config.AuthBackEndRoles results) ++
          [Call.get projectsPath t listing]) = results := by
      simp [sarResults, sarResults_append, sarResults_zipWith _ _ _ hlen]
    have hns := listedItemsOf_single_get (Call.tokenReview t (.ok tr) ::
      List.zipWith (sarCall tr.UserName) auth.config.AuthBackEndRoles results) projectsPath t
      listing (by simp [getResults, getResults_zipWith])
    simp only [hfill2, hsar, hns]
    simp

/-! ## The claims -/

/-- C1, as stated, fails: the value `Bearer ` (the scheme, a space and no token) has the first
word `Bearer`, and `Process` returns the request with its `Authorization` header in place,
because the extracted token is empty. -/
theorem C1_counterexample :
    ToLower (firstWord ((requestOf [("Authorization", ["Bearer "])]).Header.Get
      headerAuthorization)) = "bearer" ∧
    ((Process (scriptedHandler []) (requestOf [("Authorization", ["Bearer "])]) {}
        ⟨sampleScript, []⟩).toOption.map fun o => o.req.Header.Values headerAuthorization) =
      some ["Bearer "] := by
  decide

/-- C1, amended: for every request whose `Authorization` value is a word lower-casing to
`bearer`, one space and a non-empty token, and for every client, starting context and world,
`Process` returns a request that has no `Authorization` header. -/
theorem C1_authorization_removed (auth : authorizationHandler σ) (req : Request)
    (context : RequestContext) (w : World σ) (t : String) (h : bearerCredential req t) :
    ∃ o, Process auth req context w = .ok o ∧
      o.req.Header.contains headerAuthorization = false ∧
      o.req.Header.Values headerAuthorization = [] ∧
      o.req.Header.Get headerAuthorization = "" := by
  refine ⟨_, Process_credential auth req context w t h, ?_⟩
  have he : (injectHeaders (req.Header.Del headerAuthorization)
      (fillContext auth { context with Token := t } w).2.1).entry "Authorization" = none := by
    rw [injectHeaders_entry _ _ _ (by decide) (by decide) (by decide) (by decide)]
    simp [Header.Del, canon_authorization]
  simp [Header.contains, Header.Values, Header.Get, canon_authorization, he]

/-- C1, amended, at the request `Authorization: Bearer abc` with a failing token review. -/
theorem C1_authorization_removed_witness :
    bearerCredential (requestOf [("Authorization", ["Bearer abc"])]) "abc" ∧
    ∃ o, Process (scriptedHandler [("admin", sampleRule)])
        (requestOf [("Authorization", ["Bearer abc"])]) {}
        ⟨{ sampleScript with tokenReview := .error "unauthorized" }, []⟩ = .ok o ∧
      o.req.Header.contains headerAuthorization = false ∧
      o.req.Header.Values headerAuthorization = [] ∧
      o.req.Header.Get headerAuthorization = "" :=
  ⟨⟨⟨"Bearer", by decide, by decide⟩, by decide⟩,
    C1_authorization_removed _ _ _ _ "abc" ⟨⟨"Bearer", by decide, by decide⟩, by decide⟩⟩

/-- C2: a request that has no `Authorization` header, or whose `Authorization` value has a
scheme that does not lower-case to `bearer`, is returned as it is with a nil error; the world
is as before (no call was issued) and the context, empty at the start, is empty at the end. -/
theorem C2_pass_through (auth : authorizationHandler σ) (req : Request) (w : World σ)
    (h : req.Header.contains headerAuthorization = false ∨
      ToLower (firstWord (req.Header.Get headerAuthorization)) ≠ "bearer") :
    Process auth req {} w =
      .ok ⟨req, none, { Token := "", UserName := "", Roles := [], Namespaces := [] }, w⟩ := by
  have hne : ToLower (firstWord (req.Header.Get headerAuthorization)) ≠ "bearer" := by
    rcases h with h | h
    · have hget : req.Header.Get headerAuthorization = "" := by
        simp only [Header.contains] at h
        cases he : req.Header.entry (CanonicalMIMEHeaderKey headerAuthorization) with
        | none => simp [Header.Get, he]
        | some v => simp [he] at h
      rw [hget]
      decide
    · exact h
  simp [Process, getBearerTokenFrom_other req hne]

/-- C2 at the request `Authorization: Basic aksadfjfasdf` of the test suite. -/
theorem C2_pass_through_witness :
    (((requestOf [("Authorization", ["Basic aksadfjfasdf"])]).Header.contains
        headerAuthorization = false ∨
      ToLower (firstWord ((requestOf [("Authorization", ["Basic aksadfjfasdf"])]).Header.Get
        headerAuthorization)) ≠ "bearer")) ∧
    Process (scriptedHandler [("admin", sampleRule)])
        (requestOf [("Authorization", ["Basic aksadfjfasdf"])]) {} ⟨sampleScript, []⟩ =
      .ok ⟨requestOf [("Authorization", ["Basic aksadfjfasdf"])], none,
        { Token := "", UserName := "", Roles := [], Namespaces := [] }, ⟨sampleScript, []⟩⟩ :=
  ⟨Or.inr (by decide), C2_pass_through _ _ _ (Or.inr (by decide))⟩

/-- C3, at a failing input: the request carries `Authorization: Bearer abc` and the
caller-supplied `X-Forwarded-Role: admin`; the one configured rule `viewer` is denied. The
returned request has one `X-Forwarded-Role` value, `admin`, although no rule was granted. -/
theorem C3_failing_input :
    ((Process (scriptedHandler [("viewer", sampleRule)])
        (requestOf [("Authorization", ["Bearer abc"]), ("X-Forwarded-Role", ["admin"])]) {}
        ⟨{ sampleScript with subjectAccessReviews := [.ok false] }, []⟩).toOption.map
      fun o => (o.req.Header.Values headerForwardedRole,
        granted [("viewer", sampleRule)] (sarResults o.world.calls))) =
      some (["admin"], []) := by
  decide

/-- C4, at a failing input: the request carries `Authorization: Bearer abc` and the
caller-supplied `X-Forwarded-Namespace: kube-system`; the listing returns the one item
`proj-a`. The returned request has two namespace values but one UID value, and the first of
its namespace values is not the name of the first item. -/
theorem C4_failing_input :
    ((Process (scriptedHandler [])
        (requestOf [("Authorization", ["Bearer abc"]), ("X-Forwarded-Namespace", ["kube-system"])])
        {} ⟨{ sampleScript with get := .ok sampleListing }, []⟩).toOption.map
      fun o => (o.req.Header.Values headerForwardedNamespace,
        o.req.Header.Values headerForwardedNamespaceUID,
        (listedItemsOf o.world.calls).map namespaceOf)) =
      some (["kube-system", "proj-a"], ["uid-1"], [{ Name := "proj-a", UID := "uid-1" }]) := by
  decide

/-- C5: when the `Authorization` value is a word `s` lower-casing to `bearer`, one space and
`t`, `getBearerTokenFrom` returns exactly `t`; so the result is non-empty when `t` is. -/
theorem C5_bearer_token (req : Request) (s t : String) (hs : ToLower s = "bearer")
    (hv : req.Header.Get headerAuthorization = s ++ " " ++ t) :
    getBearerTokenFrom req = .ok t ∧
      (t ≠ "" → ∃ r, getBearerTokenFrom req = .ok r ∧ r ≠ "") :=
  ⟨getBearerTokenFrom_bearer req s t hs hv,
    fun ht => ⟨t, getBearerTokenFrom_bearer req s t hs hv, ht⟩⟩

/-- C5 at the value `BeARer aksadfjfasdf` of the test suite. -/
theorem C5_bearer_token_witness :
    (ToLower "BeARer" = "bearer" ∧
      (requestOf [("Authorization", ["BeARer aksadfjfasdf"])]).Header.Get headerAuthorization =
        "BeARer" ++ " " ++ "aksadfjfasdf") ∧
    getBearerTokenFrom (requestOf [("Authorization", ["BeARer aksadfjfasdf"])]) =
      .ok "aksadfjfasdf" ∧
    ("aksadfjfasdf" ≠ "" → ∃ r,
      getBearerTokenFrom (requestOf [("Authorization", ["BeARer aksadfjfasdf"])]) = .ok r ∧
        r ≠ "") :=
  ⟨⟨by decide, by decide⟩, C5_bearer_token _ "BeARer" "aksadfjfasdf" (by decide) (by decide)⟩

/-- C6: for every request carrying a Bearer credential, whatever `X-Forwarded-User` values it
came with, the returned request has exactly one `X-Forwarded-User` value, `context.UserName`:
the username token review returned when it succeeded; when it failed, the `UserName` the
context was handed in with, which is the empty string for the empty context the pipeline
creates. -/
theorem C6_forwarded_user (auth : authorizationHandler σ) (req : Request)
    (context : RequestContext) (s : σ) (t : String) (h : bearerCredential req t) :
    ∃ o, Process auth req context ⟨s, []⟩ = .ok o ∧
      o.req.Header.Values headerForwardedUser = [o.context.UserName] ∧
      (∀ tr, (auth.osClient.TokenReview t s).1 = .ok tr → o.context.UserName = tr.UserName) ∧
      (∀ e, (auth.osClient.TokenReview t s).1 = .error e →
        o.context.UserName = context.UserName ∧
        (context.UserName = "" → o.req.Header.Values headerForwardedUser = [""])) := by
  refine ⟨_, Process_credential auth req context ⟨s, []⟩ t h, injectHeaders_user _ _, ?_, ?_⟩
  · intro tr htr
    obtain ⟨results, listing, s2, _, hfill⟩ :=
      fillContext_ok auth { context with Token := t } ⟨s, []⟩ tr htr
    simp only [hfill]
  · intro e he
    have hfill := fillContext_error auth { context with Token := t } ⟨s, []⟩ e he
    simp only [hfill]
    refine ⟨trivial, fun hempty => ?_⟩
    rw [injectHeaders_user, hempty]

/-- C6 at a request that carries `Authorization: Bearer abc` and a caller-supplied
`X-Forwarded-User: root`, for the user `foo`. -/
theorem C6_forwarded_user_witness :
    bearerCredential
      (requestOf [("Authorization", ["Bearer abc"]), ("X-Forwarded-User", ["root", "x"])])
      "abc" ∧
    ∃ o, Process (scriptedHandler [])
        (requestOf [("Authorization", ["Bearer abc"]), ("X-Forwarded-User", ["root", "x"])])
        {} ⟨sampleScript, []⟩ = .ok o ∧
      o.req.Header.Values headerForwardedUser = [o.context.UserName] ∧
      (∀ tr, ((scriptedHandler []).osClient.TokenReview "abc" sampleScript).1 = .ok tr →
        o.context.UserName = tr.UserName) ∧
      (∀ e, ((scriptedHandler []).osClient.TokenReview "abc" sampleScript).1 = .error e →
        o.context.UserName = ({} : RequestContext).UserName ∧
        (({} : RequestContext).UserName = "" →
          o.req.Header.Values headerForwardedUser = [""])) :=
  ⟨⟨⟨"Bearer", by decide, by decide⟩, by decide⟩,
    C6_forwarded_user _ _ _ _ "abc" ⟨⟨"Bearer", by decide, by decide⟩, by decide⟩⟩

/-- C7, as stated, fails: with one configured rule and a failing token review, `Process`
issues the token-review call and nothing else: no subject access review, no listing call. -/
theorem C7_counterexample :
    (scriptedHandler [("admin", sampleRule)]).config.AuthBackEndRoles.length = 1 ∧
    ((Process (scriptedHandler [("admin", sampleRule)])
        (requestOf [("Authorization", ["Bearer abc"])]) {}
        ⟨{ sampleScript with tokenReview := .error "unauthorized",
                             subjectAccessReviews := [.ok true] }, []⟩).toOption.map
      fun o => ((tokenReviewResults o.world.calls).length, (sarResults o.world.calls).length,
        (getResults o.world.calls).length)) = some (1, 0, 0) := by
  decide

/-- C7, amended: for every request carrying a Bearer credential, one invocation of `Process`
issues exactly one token-review call; when that call succeeds it also issues exactly one
subject access review per configured rule and exactly one listing call, `N + 2` calls in all;
when that call fails it issues no other call. -/
theorem C7_calls_issued (auth : authorizationHandler σ) (req : Request)
    (context : RequestContext) (s : σ) (t : String) (h : bearerCredential req t) :
    ∃ o, Process auth req context ⟨s, []⟩ = .ok o ∧
      (tokenReviewResults o.world.calls).length = 1 ∧
      (∀ tr, (auth.osClient.TokenReview t s).1 = .ok tr →
        (sarResults o.world.calls).length = auth.config.AuthBackEndRoles.length ∧
        (getResults o.world.calls).length = 1 ∧
        o.world.calls.length = auth.config.AuthBackEndRoles.length + 2) ∧
      (∀ e, (auth.osClient.TokenReview t s).1 = .error e →
        (sarResults o.world.calls).length = 0 ∧
        (getResults o.world.calls).length = 0 ∧
        o.world.calls.length = 1) := by
  refine ⟨_, Process_credential auth req context ⟨s, []⟩ t h, ?_, ?_, ?_⟩
  · cases htr : (auth.osClient.TokenReview t s).1 with
    | error e =>
      have hfill := fillContext_error auth { context with Token := t } ⟨s, []⟩ e htr
      simp [hfill, tokenReviewResults]
    | ok tr =>
      obtain ⟨results, listing, s2, hlen, hfill⟩ :=
        fillContext_ok auth { context with Token := t } ⟨s, []⟩ tr htr
      simp [hfill, tokenReviewResults, tokenReviewResults_append, tokenReviewResults_zipWith]
  · intro tr htr
    obtain ⟨results, listing, s2, hlen, hfill⟩ :=
      fillContext_ok auth { context with Token := t } ⟨s, []⟩ tr htr
    simp [hfill, sarResults, sarResults_append, sarResults_zipWith _ _ _ hlen, getResults,
      getResults_append, getResults_zipWith, hlen]
  · intro e he
    have hfill := fillContext_error auth { context with Token := t } ⟨s, []⟩ e he
    simp [hfill, sarResults, getResults]

/-- C7, amended, at a request with `Authorization: Bearer abc`, two rules and a client whose
calls all succeed. -/
theorem C7_calls_issued_witness :
    bearerCredential (requestOf [("Authorization", ["Bearer abc"])]) "abc" ∧
    ∃ o, Process (scriptedHandler [("admin", sampleRule), ("viewer", sampleRule)])
        (requestOf [("Authorization", ["Bearer abc"])]) {}
        ⟨{ sampleScript with subjectAccessReviews := [.ok true, .ok false] }, []⟩ = .ok o ∧
      (tokenReviewResults o.world.calls).length = 1 ∧
      (∀ tr, ((scriptedHandler [("admin", sampleRule), ("viewer", sampleRule)]).osClient.TokenReview
          "abc" { sampleScript with subjectAccessReviews := [.ok true, .ok false] }).1 = .ok tr →
        (sarResults o.world.calls).length =
          (scriptedHandler [("admin", sampleRule),
            ("viewer", sampleRule)]).config.AuthBackEndRoles.length ∧
        (getResults o.world.calls).length = 1 ∧
        o.world.calls.length =
          (scriptedHandler [("admin", sampleRule),
            ("viewer", sampleRule)]).config.AuthBackEndRoles.length + 2) ∧
      (∀ e, ((scriptedHandler [("admin", sampleRule), ("viewer", sampleRule)]).osClient.TokenReview
          "abc" { sampleScript with subjectAccessReviews := [.ok true, .ok false] }).1 =
            .error e →
        (sarResults o.world.calls).length = 0 ∧
        (getResults o.world.calls).length = 0 ∧
        o.world.calls.length = 1) :=
  ⟨⟨⟨"Bearer", by decide, by decide⟩, by decide⟩,
    C7_calls_issued _ _ _ _ "abc" ⟨⟨"Bearer", by decide, by decide⟩, by decide⟩⟩

/-- C8: for every request carrying a Bearer credential, `Process` returns; and when token
review succeeded with username `u` and the listing call returned an error, the returned
request has the single `X-Forwarded-User` value `u`, has after its inbound `X-Forwarded-Role`
values one value for each rule whose subject access review returned allowed=true, in rule
order, and has the `X-Forwarded-Namespace` and `X-Forwarded-NamespaceUID` values it came
with: none was added. -/
theorem C8_listing_failure (auth : authorizationHandler σ) (req : Request) (s : σ) (t : String)
    (h : bearerCredential req t) :
    ∃ o, Process auth req {} ⟨s, []⟩ = .ok o ∧
      ∀ tr e, (auth.osClient.TokenReview t s).1 = .ok tr →
        getResults o.world.calls = [.error e] →
        o.err = none ∧
        o.req.Header.Values headerForwardedUser = [tr.UserName] ∧
        (sarResults o.world.calls).length = auth.config.AuthBackEndRoles.length ∧
        o.req.Header.Values headerForwardedRole =
          req.Header.Values headerForwardedRole ++
            granted auth.config.AuthBackEndRoles (sarResults o.world.calls) ∧
        o.req.Header.Values headerForwardedNamespace =
          req.Header.Values headerForwardedNamespace ∧
        o.req.Header.Values headerForwardedNamespaceUID =
          req.Header.Values headerForwardedNamespaceUID := by
  refine ⟨_, Process_credential auth req {} ⟨s, []⟩ t h, ?_⟩
  intro tr e htr hget
  obtain ⟨results, listing, s2, hlen, hfill⟩ :=
    fillContext_ok auth { Token := t, UserName := "", Roles := [], Namespaces := [] }
      ⟨s, []⟩ tr htr
  have hfill2 : fillContext auth { ({} : RequestContext) with Token := t } ⟨s, []⟩ =
      (none, ⟨t, tr.UserName, granted auth.config.AuthBackEndRoles results,
          namespacesOf listing⟩,
        ⟨s2, Call.tokenReview t (.ok tr) ::
          (List.zipWith (sarCall tr.UserName) auth.config.AuthBackEndRoles results ++
            [Call.get projectsPath t listing])⟩) := by
    simpa using hfill
  have hsar : ∀ l, sarResults (Call.tokenReview t (.ok tr) ::
      (List.zipWith (sarCall tr.UserName) auth.config.AuthBackEndRoles results ++
        [Call.get projectsPath t l])) = results := by
    intro l
    simp [sarResults, sarResults_append, sarResults_zipWith _ _ _ hlen]
  simp only [hfill2] at hget ⊢
  have hlist : listing = .error e := by
    simpa [getResults, getResults_append, getResults_zipWith] using hget
  subst hlist
  rw [hsar]
  refine ⟨trivial, injectHeaders_user _ _, hlen, ?_, ?_, ?_⟩
  · rw [injectHeaders_roles, Del_values_ne _ _ _ (by decide)]
  · rw [injectHeaders_names, Del_values_ne _ _ _ (by decide)]
    simp [namespacesOf]
  · rw [injectHeaders_uids, Del_values_ne _ _ _ (by decide)]
    simp [namespacesOf]

/-- C8 at a request with `Authorization: Bearer abc`, the rules `admin` (allowed) and
`viewer` (denied), the user `foo` and a failing listing call. -/
theorem C8_listing_failure_witness :
    bearerCredential (requestOf [("Authorization", ["Bearer abc"])]) "abc" ∧
    ∃ o, Process (scriptedHandler [("admin", sampleRule), ("viewer", sampleRule)])
        (requestOf [("Authorization", ["Bearer abc"])]) {}
        ⟨{ sampleScript with subjectAccessReviews := [.ok true, .ok false],
                             get := .error "listing failed" }, []⟩ = .ok o ∧
      getResults o.world.calls = [.error "listing failed"] ∧
      o.err = none ∧
      o.req.Header.Values headerForwardedUser = ["foo"] ∧
      o.req.Header.Values headerForwardedRole = ["admin"] ∧
      o.req.Header.Values headerForwardedNamespace = [] ∧
      o.req.Header.Values headerForwardedNamespaceUID = [] := by
  have hcred : bearerCredential (requestOf [("Authorization", ["Bearer abc"])]) "abc" :=
    ⟨⟨"Bearer", by decide, by decide⟩, by decide⟩
  obtain ⟨o, ho, hall⟩ := C8_listing_failure
    (scriptedHandler [("admin", sampleRule), ("viewer", sampleRule)])
    (requestOf [("Authorization", ["Bearer abc"])])
    { sampleScript with subjectAccessReviews := [.ok true, .ok false],
                        get := .error "listing failed" } "abc" hcred
  cases ho
  exact ⟨hcred, _, rfl, rfl, (hall ⟨"foo"⟩ "listing failed" rfl rfl).1,
    (hall ⟨"foo"⟩ "listing failed" rfl rfl).2.1,
    (hall ⟨"foo"⟩ "listing failed" rfl rfl).2.2.2.1,
    (hall ⟨"foo"⟩ "listing failed" rfl rfl).2.2.2.2.1,
    (hall ⟨"foo"⟩ "listing failed" rfl rfl).2.2.2.2.2⟩

/-- C9, at a failing input: the request carries `Authorization: Bearer`, the scheme alone.
`getBearerTokenFrom` splits it into the single part `Bearer` and reads `parts[1]`, so
`Process` panics with an index out of range and returns no error value at all. -/
theorem C9_failing_input :
    Process (scriptedHandler []) (requestOf [("Authorization", ["Bearer"])]) {}
        ⟨sampleScript, []⟩ = .error (Panic.indexOutOfRange 1 1) := by
  rfl

/-- C10: `sanitizeHeaders` leaves the request with no `Authorization` header (no entry, no
values, `Get` yields `""`) and leaves the entry of every other key of the header map as it
was. -/
theorem C10_sanitizeHeaders (req : Request) :
    (sanitizeHeaders req).Header.contains headerAuthorization = false ∧
    (sanitizeHeaders req).Header.Values headerAuthorization = [] ∧
    (sanitizeHeaders req).Header.Get headerAuthorization = "" ∧
    ∀ k, k ≠ "Authorization" → (sanitizeHeaders req).Header.entry k = req.Header.entry k := by
  refine ⟨?_, ?_, ?_, ?_⟩
  · simp [sanitizeHeaders, Header.contains, Header.Del]
  · simp [sanitizeHeaders, Header.Values, Header.Del]
  · simp [sanitizeHeaders, Header.Get, Header.Del]
  · intro k hk
    simp [sanitizeHeaders, Header.Del, canon_authorization, hk]

/-- C10 at the request of the test suite, with `Authorization: someValue` and
`someotherkey: someotherValue`. -/
theorem C10_sanitizeHeaders_witness :
    (sanitizeHeaders (requestOf [("Authorization", ["someValue"]),
      ("someotherkey", ["someotherValue"])])).Header.contains headerAuthorization = false ∧
    (sanitizeHeaders (requestOf [("Authorization", ["someValue"]),
      ("someotherkey", ["someotherValue"])])).Header.entry "someotherkey" =
        some ["someotherValue"] :=
  ⟨(C10_sanitizeHeaders _).1,
    ((C10_sanitizeHeaders (requestOf [("Authorization", ["someValue"]),
      ("someotherkey", ["someotherValue"])])).2.2.2 "someotherkey" (by decide)).trans
        (by decide)⟩

/-! ## Lemmas for the claims on `fetchRoles`, `fetchNamespaces` and `getBearerTokenFrom` -/

theorem grants_iff (result : Except Error Bool) : grants result = true ↔ result = .ok true := by
  cases result with
  | error e => simp [grants]
  | ok b => cases b <;> simp [grants]

theorem mem_granted_iff (rules : List (String × BackendRoleConfig))
    (results : List (Except Error Bool)) (name : String) :
    name ∈ granted rules results ↔
      ∃ (i : Nat) (h1 : i < rules.length) (h2 : i < results.length),
        rules[i].1 = name ∧ results[i] = .ok true := by
  constructor
  · intro h
    simp only [granted, List.mem_map, List.mem_filter] at h
    obtain ⟨p, ⟨hp, hg⟩, hname⟩ := h
    obtain ⟨i, hi, hpi⟩ := List.mem_iff_getElem.mp hp
    have hi2 := hi
    simp only [List.length_zip, Nat.lt_min] at hi2
    refine ⟨i, hi2.1, hi2.2, ?_, ?_⟩
    · rw [← hname, ← hpi, List.getElem_zip]
    · rw [← grants_iff, ← hg, ← hpi, List.getElem_zip]
  · rintro ⟨i, h1, h2, hname, hres⟩
    simp only [granted, List.mem_map, List.mem_filter]
    refine ⟨(rules[i], results[i]), ⟨?_, ?_⟩, hname⟩
    · refine List.mem_iff_getElem.mpr ⟨i, by simp [h1, h2], ?_⟩
      rw [List.getElem_zip]
    · exact (grants_iff _).mpr hres

theorem granted_length (rules : List (String × BackendRoleConfig))
    (results : List (Except Error Bool)) (h : results.length = rules.length) :
    (granted rules results).length = results.countP grants := by
  induction rules generalizing results with
  | nil => cases results with
    | nil => rfl
    | cons r rs => simp at h
  | cons e es ih => cases results with
    | nil => simp at h
    | cons r rs =>
      simp only [List.length_cons, Nat.add_right_cancel_iff] at h
      have := ih rs h
      cases hg : grants r <;> simp [granted, hg, List.countP_cons] at this ⊢ <;> exact this

theorem stringAt_metadata (item : Json) (field : String) :
    stringAt item ["metadata", field] = metadataString item field := by
  cases item with
  | object fields =>
    simp only [stringAt, Json.GetPath, List.foldl, Json.Get, metadataString, metadataField]
    cases h1 : fields.lookup "metadata" with
    | none => rfl
    | some m =>
      cases m with
      | object metadata =>
        simp only [Option.getD, Json.Get]
        cases h2 : metadata.lookup field with
        | none => rfl
        | some v => cases v <;> rfl
      | _ => rfl
  | _ => rfl

theorem namespaceOf_eq (item : Json) : namespaceOf item = namespaceEntry item := by
  simp [namespaceOf, namespaceEntry, stringAt_metadata]

theorem cut_of_mem (sep : Char) (a : List Char) (h : sep ∈ a) :
    ∃ x y, cut sep a = some (x, y) := by
  induction a with
  | nil => simp at h
  | cons c cs ih =>
    by_cases hc : c = sep
    · exact ⟨[], cs, by simp [cut, hc]⟩
    · have hmem : sep ∈ cs := by
        rcases List.mem_cons.mp h with h | h
        · exact absurd h.symm hc
        · exact h
      obtain ⟨x, y, hxy⟩ := ih hmem
      exact ⟨c :: x, y, by simp [cut, hc, hxy]⟩

theorem cut_none_of_not_mem (sep : Char) (a : List Char) (h : sep ∉ a) : cut sep a = none := by
  induction a with
  | nil => rfl
  | cons c cs ih =>
    have hc : c ≠ sep := fun e => h (by simp [e])
    have hcs : sep ∉ cs := fun e => h (by simp [e])
    simp [cut, hc, ih hcs]

/-- Where `getBearerTokenFrom` returns: on every value that holds a space, and on every value
whose first word does not lower-case to `bearer` (the empty value among them). -/
theorem getBearerTokenFrom_returns (req : Request)
    (h : Char.ofNat 32 ∈ (req.Header.Get headerAuthorization).data ∨
      ToLower (firstWord (req.Header.Get headerAuthorization)) ≠ "bearer") :
    ∃ token, getBearerTokenFrom req = .ok token := by
  by_cases hb : ToLower (firstWord (req.Header.Get headerAuthorization)) = "bearer"
  · rcases h with h | h
    · obtain ⟨x, y, hxy⟩ := cut_of_mem _ _ h
      have hfw : firstWord (req.Header.Get headerAuthorization) = String.mk x := by
        simp only [firstWord, cut_some _ _ _ _ hxy]
      rw [hfw] at hb
      exact ⟨String.mk y, by simp [getBearerTokenFrom, SplitN, splitChars, hxy, hb, index]⟩
    · exact absurd hb h
  · exact ⟨"", getBearerTokenFrom_other req hb⟩

/-- Where `getBearerTokenFrom` panics: exactly on the values without a space that lower-case to
`bearer`. -/
theorem getBearerTokenFrom_panics (req : Request)
    (h1 : Char.ofNat 32 ∉ (req.Header.Get headerAuthorization).data)
    (h2 : ToLower (req.Header.Get headerAuthorization) = "bearer") :
    getBearerTokenFrom req = .error (Panic.indexOutOfRange 1 1) := by
  have hcut := cut_none_of_not_mem _ _ h1
  simp [getBearerTokenFrom, SplitN, splitChars, hcut, h2, index]

/-! ## The claims on `fetchRoles` and `fetchNamespaces` -/

/-- C11: for every rule set, client and starting state, `fetchRoles` issues exactly one
subject access review per rule, in rule order, whatever the answers are (an error for one rule
does not stop the rules after it); it appends to `context.Roles` the names of the rules whose
call returned without error and with allowed=true, in rule order, and nothing else: a name is
appended if and only if a rule of that name got the answer allowed=true without error. -/
theorem C11_fetchRoles (auth : authorizationHandler σ) (context : RequestContext)
    (w : World σ) :
    (sarAnswers auth context w).length = auth.config.AuthBackEndRoles.length ∧
    (fetchRoles auth context w).2.calls =
      w.calls ++ List.zipWith (sarCall context.UserName) auth.config.AuthBackEndRoles
        (sarAnswers auth context w) ∧
    (fetchRoles auth context w).1 =
      { context with
        Roles := context.Roles ++
          granted auth.config.AuthBackEndRoles (sarAnswers auth context w) } ∧
    (∀ name, name ∈ granted auth.config.AuthBackEndRoles (sarAnswers auth context w) ↔
      ∃ (i : Nat) (h1 : i < auth.config.AuthBackEndRoles.length)
        (h2 : i < (sarAnswers auth context w).length),
        (auth.config.AuthBackEndRoles[i]).1 = name ∧
          (sarAnswers auth context w)[i] = .ok true) ∧
    (granted auth.config.AuthBackEndRoles (sarAnswers auth context w)).length =
      (sarAnswers auth context w).countP grants := by
  obtain ⟨results, s, hlen, hfold⟩ :=
    fetchRoles_fold auth auth.config.AuthBackEndRoles context w
  have hans : sarAnswers auth context w = results := by
    simp [sarAnswers, fetchRoles, hfold, sarResults_zipWith _ _ _ hlen]
  rw [hans]
  refine ⟨hlen, ?_, ?_, fun name => mem_granted_iff _ _ name, granted_length _ _ hlen⟩
  · simp [fetchRoles, hfold]
  · simp [fetchRoles, hfold]

/-- C11 at three rules whose reviews answer allowed, error, allowed: all three calls are
issued, and `admin` and `ops` are appended; `viewer`, whose call failed, is not. -/
theorem C11_fetchRoles_witness :
    (sarAnswers (scriptedHandler sampleRules) {}
      ⟨{ sampleScript with
          subjectAccessReviews := [.ok true, .error "timeout", .ok true] }, []⟩).length = 3 ∧
    (fetchRoles (scriptedHandler sampleRules) {}
      ⟨{ sampleScript with
          subjectAccessReviews := [.ok true, .error "timeout", .ok true] }, []⟩).1.Roles =
      ["admin", "ops"] :=
  ⟨(C11_fetchRoles (scriptedHandler sampleRules) {}
      ⟨{ sampleScript with
          subjectAccessReviews := [.ok true, .error "timeout", .ok true] }, []⟩).1,
    by decide⟩

/-- C12: when the listing call succeeds with an object whose `items` is an array of `n`
items, `fetchNamespaces` appends exactly `n` entries to `context.Namespaces`, in array order;
entry `i` holds the `metadata.name` and `metadata.uid` of item `i`, each replaced by the empty
string when it is absent, null or not a string, and every item gets its entry whatever the
items before it lack. -/
theorem C12_fetchNamespaces (auth : authorizationHandler σ) (context : RequestContext)
    (w : World σ) (fields : List (String × Json)) (items : List Json)
    (hget : (auth.osClient.Get projectsPath context.Token w.state).1 = .ok (Json.object fields))
    (hitems : fields.lookup "items" = some (Json.array items)) :
    (fetchNamespaces auth context w).1 =
      { context with Namespaces := context.Namespaces ++ items.map namespaceEntry } ∧
    (fetchNamespaces auth context w).1.Namespaces.length =
      context.Namespaces.length + items.length ∧
    ∀ (i : Nat) (h : i < items.length),
      (fetchNamespaces auth context w).1.Namespaces[context.Namespaces.length + i]? =
        some { Name := metadataString items[i] "name", UID := metadataString items[i] "uid" } := by
  have hrun : (fetchNamespaces auth context w).1 =
      { context with Namespaces := context.Namespaces ++ items.map namespaceEntry } := by
    have hmap : items.map namespaceOf = items.map namespaceEntry :=
      List.map_congr_left fun item _ => namespaceOf_eq item
    have hget2 : (auth.osClient.Get "apis/project.openshift.io/v1/projects" context.Token
        w.state).1 = .ok (Json.object fields) := hget
    have hr := range_GetIndex (Json.array items)
    simp only [Json.MustArray] at hr
    simp only [fetchNamespaces, callGet, hget2, Json.CheckGet, hitems, fetchNamespaces_loop,
      Json.MustArray, hr, hmap]
  refine ⟨hrun, ?_, ?_⟩
  · rw [hrun]
    simp
  · intro i h
    rw [hrun]
    show (context.Namespaces ++ items.map namespaceEntry)[context.Namespaces.length + i]? = _
    rw [List.getElem?_append_right (Nat.le_add_right _ _), Nat.add_sub_cancel_left,
      List.getElem?_map, List.getElem?_eq_getElem h]
    rfl

/-- C12 at the four-item response `raggedListing`: four entries are appended, the three items
with missing, null or non-string fields included. -/
theorem C12_fetchNamespaces_witness :
    ((scriptedHandler []).osClient.Get projectsPath ({} : RequestContext).Token
        { sampleScript with get := .ok (Json.object raggedListing) }).1 =
      .ok (Json.object raggedListing) ∧
    (fetchNamespaces (scriptedHandler []) {}
        ⟨{ sampleScript with get := .ok (Json.object raggedListing) }, []⟩).1.Namespaces =
      [{ Name := "proj-a", UID := "uid-1" }, { Name := "proj-b", UID := "" },
        { Name := "", UID := "" }, { Name := "", UID := "" }] :=
  ⟨rfl, (congrArg RequestContext.Namespaces (C12_fetchNamespaces (scriptedHandler []) {}
    ⟨{ sampleScript with get := .ok (Json.object raggedListing) }, []⟩ raggedListing _ rfl
    rfl).1).trans (by decide)⟩

/-! ## The claims on totality and on caller-supplied headers -/

/-- The context, the world and the `X-Forwarded-User` values `Process` returns depend on the
request through its Bearer credential alone. -/
theorem Process_user_independent (auth : authorizationHandler σ) (r1 r2 : Request)
    (context : RequestContext) (w : World σ) (t : String)
    (h1 : bearerCredential r1 t) (h2 : bearerCredential r2 t) :
    ∃ o1 o2, Process auth r1 context w = .ok o1 ∧ Process auth r2 context w = .ok o2 ∧
      o1.context = o2.context ∧ o1.world = o2.world ∧
      o1.req.Header.Values headerForwardedUser = o2.req.Header.Values headerForwardedUser :=
  ⟨_, _, Process_credential auth r1 context w t h1, Process_credential auth r2 context w t h2,
    rfl, rfl, by rw [injectHeaders_user, injectHeaders_user]⟩

/-- C13, at a failing input: for the `Authorization` value `Bearer`, the scheme word with no
space after it, `getBearerTokenFrom` reads `parts[1]` of the one-element slice `[Bearer]` and
panics with an index out of range instead of returning a string. -/
theorem C13_failing_input :
    SplitN "Bearer" (Char.ofNat 32) 2 = ["Bearer"] ∧
    getBearerTokenFrom (requestOf [("Authorization", ["Bearer"])]) =
      .error (Panic.indexOutOfRange 1 1) :=
  ⟨by decide, rfl⟩

/-- C14, at a failing input: two requests carry the credential `Bearer abc` and differ only in
their forwarded headers (the second one comes with a user, a role, a namespace and a UID of the
caller's choosing). Against the same handler and the same client answers, the returned
requests agree on `X-Forwarded-User` and disagree on the other three headers: the values the
caller supplied are still there. -/
theorem C14_failing_input :
    differOnlyInForwarded (requestOf [("Authorization", ["Bearer abc"])])
      (requestOf [("Authorization", ["Bearer abc"]), ("X-Forwarded-User", ["root"]),
        ("X-Forwarded-Role", ["admin"]), ("X-Forwarded-Namespace", ["kube-system"]),
        ("X-Forwarded-Namespaceuid", ["0000"])]) ∧
    ((Process (scriptedHandler []) (requestOf [("Authorization", ["Bearer abc"])]) {}
        ⟨sampleScript, []⟩).toOption.map fun o => forwardedValues o.req) =
      some (["foo"], [], [], []) ∧
    ((Process (scriptedHandler [])
        (requestOf [("Authorization", ["Bearer abc"]), ("X-Forwarded-User", ["root"]),
          ("X-Forwarded-Role", ["admin"]), ("X-Forwarded-Namespace", ["kube-system"]),
          ("X-Forwarded-Namespaceuid", ["0000"])]) {}
        ⟨sampleScript, []⟩).toOption.map fun o => forwardedValues o.req) =
      some (["foo"], ["admin"], ["kube-system"], ["0000"]) := by
  refine ⟨?_, by decide, by decide⟩
  intro k hk
  have hkeys : forwardedKeys = ["X-Forwarded-User", "X-Forwarded-Role",
      "X-Forwarded-Namespace", "X-Forwarded-Namespaceuid"] := by decide
  rw [hkeys] at hk
  simp only [List.mem_cons, List.mem_singleton, List.not_mem_nil, or_false, not_or] at hk
  obtain ⟨hu, hr, hn, hi⟩ := hk
  have hu2 : ("X-Forwarded-User" == k) = false := by simpa using fun e => hu e.symm
  have hr2 : ("X-Forwarded-Role" == k) = false := by simpa using fun e => hr e.symm
  have hn2 : ("X-Forwarded-Namespace" == k) = false := by simpa using fun e => hn e.symm
  have hi2 : ("X-Forwarded-Namespaceuid" == k) = false := by simpa using fun e => hi e.symm
  by_cases ha : k = "Authorization"
  · subst ha
    rfl
  · have ha2 : ("Authorization" == k) = false := by simpa using fun e => ha e.symm
    simp only [requestOf, Header.ofList, List.lookup]
    have hu3 : (k == "X-Forwarded-User") = false := by simpa using hu
    have hr3 : (k == "X-Forwarded-Role") = false := by simpa using hr
    have hn3 : (k == "X-Forwarded-Namespace") = false := by simpa using hn
    have hi3 : (k == "X-Forwarded-Namespaceuid") = false := by simpa using hi
    have ha3 : (k == "Authorization") = false := by simpa using ha
    simp [ha2, hu2, hr2, hn2, hi2, ha3, hu3, hr3, hn3, hi3]

end ElasticsearchProxy
